import Mathlib

/-!
Verification of the fractional-matching solver
(`src/algorithms/fractional_matching.py`, class `FractionalMatchingSolver`
and the entry point `minimal_fraction_max_matching`).

The solver manipulates an undirected networkx graph and a dict `self.x`
mapping directed edge keys to float values.  Every value the Python code
ever stores is a multiple of `1/2`: the constants are `0`, `0.5` and `1`,
and the only arithmetic is `1 - v`, so binary floats are exact here.  We
therefore store values doubled, as integers: a stored `h : ℤ` represents
the Python float `h / 2`, so `0.5 ↦ 1` and `1 ↦ 2`; the function `qval`
recovers the rational value.  The dict `self.x` is modelled as an
insertion-ordered association list with dict update semantics, the label
and predecessor dicts as total functions on vertices (they are populated
for every node of the graph before being read).  Each `while` loop of the
Python source is modelled with explicit fuel; a `none` result marks a
computation that the Python program would not complete (divergence or a
`KeyError`-free infinite loop), and is distinguishable from every real
result.
-/

namespace FracMatching

abbrev V := Nat
abbrev Edge := V × V
abbrev XMap := List (Edge × ℤ)

/-- Rational value represented by a stored doubled integer. -/
def qval (h : ℤ) : ℚ := (h : ℚ) / 2

/-- Python `self.x.get(k, 0)`. -/
def dget : XMap → Edge → ℤ
  | [], _ => 0
  | (k', v) :: rest, k => if k' = k then v else dget rest k

/-- Python `self.x[k] = v`: dict update, replacing in place or appending. -/
def dset : XMap → Edge → ℤ → XMap
  | [], k, v => [(k, v)]
  | (k', v') :: rest, k, v =>
      if k' = k then (k, v) :: rest else (k', v') :: dset rest k v

/-- Accumulation of `node_values` in `_initialize_labels`: for each entry
`((u, v), val)` of `x`, `val` is added to the count of `u`. -/
def nodeVal : XMap → V → ℤ
  | [], _ => 0
  | (k, v) :: rest, u => (if k.1 = u then v else 0) + nodeVal rest u

/-- Sum of all stored values of a map (doubled units). -/
def totalOf : XMap → ℤ
  | [] => 0
  | (_, v) :: rest => v + totalOf rest

/-- Append an element if not present: dict-key insertion order, as in
networkx adjacency and node dicts. -/
def insNew (l : List V) (a : V) : List V := if a ∈ l then l else l ++ [a]

/-- A networkx graph: node list in insertion order plus the edge list. -/
structure Graph where
  nodeList : List V
  edges : List Edge

/-- Node insertion order of `nx.Graph(edge_list)`: scanning the edges in
order, each endpoint is added when first seen. -/
def nodesOfEdges (es : List Edge) : List V :=
  es.foldl (fun acc e => insNew (insNew acc e.1) e.2) []

/-- The graph `nx.Graph(edge_list)`. -/
def Graph.ofEdges (es : List Edge) : Graph := ⟨nodesOfEdges es, es⟩

/-- Python `G.neighbors(u)`, in adjacency insertion order. -/
def nbrs (G : Graph) (u : V) : List V :=
  G.edges.foldl (fun acc e =>
    if e.1 = u then insNew acc e.2
    else if e.2 = u then insNew acc e.1
    else acc) []

/-- Vertex labels `"+"` and `"-"`; `none` models an unlabeled vertex. -/
inductive Lbl | plus | minus
deriving DecidableEq

/-- Solver state: the matching value map `self.x`, the label dict and the
predecessor dict. -/
structure St where
  x : XMap
  labels : V → Option Lbl
  preds : V → Option V

/-- Pointwise function update (dict assignment for label/pred dicts). -/
def fupd {β : Type} (f : V → β) (k : V) (v : β) : V → β :=
  fun z => if z = k then v else f z

/-- State after `__init__`: empty matching, empty label and pred dicts. -/
def initSt : St := ⟨[], fun _ => none, fun _ => none⟩

/-- Python `_initialize_labels`: label `"+"` iff the incident sum is `< 1`
(doubled: `< 2`), every node's predecessor `None`. -/
def initializeLabels (G : Graph) (st : St) : St :=
  { x := st.x
    labels := fun v =>
      if v ∈ G.nodeList then
        (if nodeVal st.x v < 2 then some .plus else none)
      else none
    preds := fun _ => none }

/-- Inner neighbor loop of `_edge_scan`: skip a `"-"` neighbor, return on a
`"+"` neighbor, return on an unlabeled neighbor with `x.get((u,v),0) < 1`
(doubled: `< 2`). -/
def scanNbrs (st : St) (u : V) : List V → Option Edge
  | [] => none
  | v :: rest =>
      match st.labels v with
      | some .minus => scanNbrs st u rest
      | some .plus => some (u, v)
      | none => if dget st.x (u, v) < 2 then some (u, v) else scanNbrs st u rest

/-- Outer loop of `_edge_scan` over nodes labeled `"+"`. -/
def scanNodes (G : Graph) (st : St) : List V → Option Edge
  | [] => none
  | u :: rest =>
      if st.labels u = some .plus then
        match scanNbrs st u (nbrs G u) with
        | some p => some p
        | none => scanNodes G st rest
      else scanNodes G st rest

/-- Python `_edge_scan`. -/
def edgeScan (G : Graph) (st : St) : Option Edge := scanNodes G st G.nodeList

/-- Predecessor-chain trace of `_augment`
(`while self.preds[current] is not None`), fuelled: `none` models the
divergence that a cyclic predecessor map would cause. -/
def trace (preds : V → Option V) : Nat → V → Option (List V)
  | fuel, c =>
      match preds c with
      | none => some [c]
      | some p =>
          match fuel with
          | 0 => none
          | n + 1 => (trace preds n p).map (c :: ·)

/-- One `value ← 1 − value` flip (doubled: `2 − value`), written to both
directions of the edge, as lines 236–237 of the source do. -/
def flipEdge (x : XMap) (a b : V) : XMap :=
  let nv := 2 - dget x (a, b)
  dset (dset x (a, b) nv) (b, a) nv

/-- Flip every consecutive edge of a vertex path, left to right. -/
def flipPath (x : XMap) : List V → XMap
  | a :: b :: rest => flipPath (flipEdge x a b) (b :: rest)
  | _ => x

/-- Python `_build_cycle`. -/
def buildCycle (pu pv : List V) : List V :=
  match pv.find? (fun a => pu.contains a) with
  | none => []
  | some lca =>
      let iu := pu.indexOf lca
      let iv := pv.indexOf lca
      pu.take (iu + 1) ++ (pv.take iv).reverse

/-- Type-3 toggle around a cycle: `0.5 if x ≠ 0.5 else 0` (doubled:
`1` / `0`), both directions. -/
def toggleCycle (x : XMap) (c : List V) : XMap :=
  (List.range c.length).foldl (fun acc i =>
    let a := c.getD i 0
    let b := c.getD ((i + 1) % c.length) 0
    let nv : ℤ := if dget acc (a, b) ≠ 1 then 1 else 0
    dset (dset acc (a, b) nv) (b, a) nv) x

/-- Type-2 assignment around a cycle: `0` at even index, `1` (doubled `2`)
at odd index, both directions. -/
def assignCycle (x : XMap) (c : List V) : XMap :=
  (List.range c.length).foldl (fun acc i =>
    let a := c.getD i 0
    let b := c.getD ((i + 1) % c.length) 0
    let nv : ℤ := if i % 2 = 0 then 0 else 2
    dset (dset acc (a, b) nv) (b, a) nv) x

/-- Python `_augment`: trace both predecessor chains, then type 1
(distinct roots: flip `root_u → u`, the edge `(u, v)`, then `v → root_v`)
or type 3 (shared root: toggle the built cycle, then flip along the
reversed `path_v`). -/
def augment (G : Graph) (st : St) (u v : V) : Option XMap :=
  let fuel := G.nodeList.length + 1
  match trace st.preds fuel u, trace st.preds fuel v with
  | some pu, some pv =>
      if pu.getLastD u ≠ pv.getLastD v then
        some (flipPath (flipEdge (flipPath st.x pu.reverse) u v) pv)
      else
        some (flipPath (toggleCycle st.x (buildCycle pu pv)) pv.reverse)
  | _, _ => none

/-- First neighbor `w` of `v` with `x[(v, w)] == 1` (doubled `2`). -/
def findSat (x : XMap) (v : V) : List V → Option V
  | [] => none
  | w :: rest => if dget x (v, w) = 2 then some w else findSat x v rest

/-- Half-cycle walk of `_label_or_augment`: extend along an unvisited
`0.5`-neighbor, else try to close on `cycle[0]`.  The outer `none` is
fuel exhaustion (unreachable at fuel `|V| + 1`, since every step visits a
new vertex); the inner `none` is the "no cycle found" error path. -/
def halfLoop (G : Graph) (x : XMap) : Nat → List V → List V → Option (Option (List V))
  | 0, _, _ => none
  | fuel + 1, cyc, visited =>
      let current := cyc.getLastD 0
      match (nbrs G current).find?
          (fun w => decide (dget x (current, w) = 1) && !visited.contains w) with
      | some w => halfLoop G x fuel (cyc ++ [w]) (visited ++ [w])
      | none =>
          match (nbrs G current).find?
              (fun w => w == cyc.headD 0 && decide (dget x (current, w) = 1)) with
          | some _ => some (some cyc)
          | none => some none

/-- Python `_label_or_augment`: `some (false, st')` means no augmentation
(case A relabeling, or the "no cycle found" error path, which merely logs
and returns `False`); `some (true, st')` means the type-2 assignment was
performed on the traced cycle. -/
def labelOrAugment (G : Graph) (st : St) (u v : V) : Option (Bool × St) :=
  match findSat st.x v (nbrs G v) with
  | some w =>
      some (false, { st with
        labels := fupd (fupd st.labels v (some .minus)) w (some .plus)
        preds := fupd (fupd st.preds v (some u)) w (some v) })
  | none =>
      match halfLoop G st.x (G.nodeList.length + 1) [v] [v] with
      | none => none
      | some none => some (false, st)
      | some (some cyc) => some (true, { st with x := assignCycle st.x cyc })

/-- The `while not augmented` inner loop of `solve`.  After a successful
`_label_or_augment` the source calls `_augment(u, v)` once more before
ending the phase (lines 109–112).  Fuel `|V| + 2` is enough for every
terminating run, since each case-A step labels a previously unlabeled
vertex. -/
def innerLoop (G : Graph) : Nat → St → Option (Bool × St)
  | 0, _ => none
  | fuel + 1, st =>
      match edgeScan G st with
      | none => some (false, st)
      | some (u, v) =>
          if st.labels v = some .plus then
            (augment G st u v).map (fun x' => (true, { st with x := x' }))
          else
            match labelOrAugment G st u v with
            | none => none
            | some (true, st') =>
                (augment G st' u v).map (fun x' => (true, { st' with x := x' }))
            | some (false, st') => innerLoop G fuel st'

/-- The outer `while True` phase loop of `solve`; one fuel unit per phase. -/
def outerLoop (G : Graph) : Nat → St → Option St
  | 0, _ => none
  | fuel + 1, st =>
      let st1 := initializeLabels G st
      match innerLoop G (G.nodeList.length + 2) st1 with
      | none => none
      | some (false, st2) => some st2
      | some (true, st2) => outerLoop G fuel st2

/-- The full symmetric value map at the end of `solve`'s loops. -/
def solveX (G : Graph) (fuel : Nat) : Option XMap :=
  (outerLoop G fuel initSt).map (·.x)

/-- Final result extraction of `solve`: keep entries with `val > 0` and
`u < v`, in `x` insertion order. -/
def extractResult (x : XMap) : XMap :=
  x.filter (fun p => decide (0 < p.2) && decide (p.1.1 < p.1.2))

/-- Python `FractionalMatchingSolver.solve`. -/
def solve (G : Graph) (fuel : Nat) : Option XMap :=
  (solveX G fuel).map extractResult

/-- Python `minimal_fraction_max_matching` applied to `nx.Graph(edge_list)`. -/
def minimalFractionMaxMatching (es : List Edge) (fuel : Nat) : Option XMap :=
  solve (Graph.ofEdges es) fuel

/-- Total matching value of a one-direction result map, in ℚ
(doubled stored units halved). -/
def totalQ (m : XMap) : ℚ := (totalOf m : ℚ) / 2

/-- Total matching value of a symmetric doubled map: every unit of
matching value is stored twice (both directions) and doubled. -/
def matchTotal (x : XMap) : ℚ := (totalOf x : ℚ) / 4

/-- Incident value sum of a vertex in ℚ, for a symmetric doubled map. -/
def incidentQ (x : XMap) (v : V) : ℚ := (nodeVal x v : ℚ) / 2

/-- Symmetric storage: both directions of every edge agree. -/
def Symm (x : XMap) : Prop := ∀ a b : V, dget x (a, b) = dget x (b, a)

/-- Domain invariant on stored values, in doubled units:
`0 ↦ 0`, `1 ↦ 0.5`, `2 ↦ 1`. -/
def DomV (x : XMap) : Prop := ∀ p ∈ x, p.2 = 0 ∨ p.2 = 1 ∨ p.2 = 2

/-- Alternating 0/1 path condition (doubled: 0/2): consecutive edge values
alternate, the next expected value being `2` when the flag is `true`. -/
def alt (x : XMap) : Bool → List V → Prop
  | _, [] => True
  | _, [_] => True
  | b, a :: c :: t => dget x (a, c) = (if b then 2 else 0) ∧ alt x (!b) (c :: t)

/-- Ordered consecutive pairs written by a cycle walk, including the
wrap-around pair. -/
def cycPairs (c : List V) : List Edge :=
  (List.range c.length).map (fun i => (c.getD i 0, c.getD ((i + 1) % c.length) 0))

/-- First `n` steps of the type-2 assignment fold (proof helper;
`assignCycle x c = aCyc x c c.length` definitionally). -/
def aCyc (x : XMap) (c : List V) (n : Nat) : XMap :=
  (List.range n).foldl (fun acc i =>
    let a := c.getD i 0
    let b := c.getD ((i + 1) % c.length) 0
    let nv : ℤ := if i % 2 = 0 then 0 else 2
    dset (dset acc (a, b) nv) (b, a) nv) x

/-- One phase of the outer loop: re-initialize labels, run the inner loop. -/
def phaseStep (G : Graph) (st : St) : Option (Bool × St) :=
  innerLoop G (G.nodeList.length + 2) (initializeLabels G st)

/-- Triangle example from the source docstring. -/
def triangle : List Edge := [(1,2),(1,3),(2,3)]

/-- Triangle plus pendant edge example from the source docstring. -/
def pendant : List Edge := [(1,2),(1,3),(2,3),(3,4)]

/-- Seven-vertex example from the source docstring. -/
def seven : List Edge := [(1,2),(1,3),(2,4),(3,5),(4,5),(5,6),(6,7)]

/-- Solver output on the triangle (doubled units: all values `0.5`). -/
def triRes : XMap := [((1,2),1),((1,3),1),((2,3),1)]

/-- Solver output on the pendant graph (doubled units: both values `1`). -/
def pendRes : XMap := [((1,2),2),((3,4),2)]

/-- Solver output on the seven-vertex graph (doubled units). -/
def sevenRes : XMap := [((1,2),1),((1,3),1),((2,4),1),((3,5),1),((4,5),1),((6,7),2)]

/-- The pendant graph as a `Graph`. -/
def Gp : Graph := Graph.ofEdges pendant

/-- Matching value map reached after two phases of `solve` on the pendant
graph: the triangle carries three `0.5` edges (doubled: `1`). -/
def x2 : XMap := [((1,2),1),((2,1),1),((1,3),1),((3,1),1),((3,2),1),((2,3),1)]

/-- State at the start of the third phase on the pendant graph. -/
def st3 : St := initializeLabels Gp ⟨x2, fun _ => none, fun _ => none⟩

/-- Matching value map after the type-2 assignment on the traced cycle
`[3, 1, 2]` in that third phase. -/
def xAfter : XMap := [((1,2),2),((2,1),2),((1,3),0),((3,1),0),((3,2),0),((2,3),0)]

/-- State after the type-2 assignment in the third phase on the pendant
graph (the `true` branch of `_label_or_augment`). -/
def stAfter : St := { st3 with x := assignCycle st3.x [3, 1, 2] }

/-- Single-edge graph on vertices 1 and 2. -/
def G12 : Graph := Graph.ofEdges [(1,2)]

/-- A state in which case B of `_label_or_augment` is reached at `v = 2`
with no closing half-cycle: vertex 1 labeled `"+"`, vertex 2 unlabeled,
empty matching. -/
def stBad : St := ⟨[], fun z => if z = 1 then some Lbl.plus else none, fun _ => none⟩

/-- Claim C8 counterexample: on the seven-vertex graph the solver does
return the mapping the spec lists, but that mapping's total value is
`7/2 = 3.5`, not `3` as the claim states. -/
theorem claim_C8_counterexample :
    minimalFractionMaxMatching seven 20 = some sevenRes ∧
    totalQ sevenRes = 7/2 ∧ (7/2 : ℚ) ≠ 3 := by
  refine ⟨by decide, ?_, by norm_num⟩
  have h : totalOf sevenRes = 7 := by decide
  rw [totalQ, h]
  norm_num

/-- Claim C8 (amended): the three literal scenarios hold with totals
`1.5`, `2` and `3.5` (the third total is `3.5`, not `3`): the triangle
yields all edges at `0.5`, the pendant graph yields `(1,2)` and `(3,4)`
at `1`, and the seven-vertex graph yields the five cycle edges at `0.5`
plus `(6,7)` at `1`. -/
theorem claim_C8_amended :
    (minimalFractionMaxMatching triangle 10 = some triRes ∧
      triRes.map (fun p => (p.1, qval p.2)) =
        [((1,2), (1:ℚ)/2), ((1,3), (1:ℚ)/2), ((2,3), (1:ℚ)/2)] ∧
      totalQ triRes = 3/2) ∧
    (minimalFractionMaxMatching pendant 10 = some pendRes ∧
      pendRes.map (fun p => (p.1, qval p.2)) = [((1,2), (1:ℚ)), ((3,4), (1:ℚ))] ∧
      totalQ pendRes = 2) ∧
    (minimalFractionMaxMatching seven 20 = some sevenRes ∧
      sevenRes.map (fun p => (p.1, qval p.2)) =
        [((1,2), (1:ℚ)/2), ((1,3), (1:ℚ)/2), ((2,4), (1:ℚ)/2), ((3,5), (1:ℚ)/2),
          ((4,5), (1:ℚ)/2), ((6,7), (1:ℚ))] ∧
      totalQ sevenRes = 7/2) := by
  have ht : totalOf triRes = 3 := by decide
  have hp : totalOf pendRes = 4 := by decide
  have hs : totalOf sevenRes = 7 := by decide
  refine ⟨⟨by decide, ?_, ?_⟩, ⟨by decide, ?_, ?_⟩, ⟨by decide, ?_, ?_⟩⟩
  · norm_num [triRes, qval]
  · rw [totalQ, ht]; norm_num
  · norm_num [pendRes, qval]
  · rw [totalQ, hp]; norm_num
  · norm_num [sevenRes, qval]
  · rw [totalQ, hs]; norm_num

/-- Claim C10: on any graph with an empty edge set (any node list,
including none at all), the inner loop of the first phase finds nothing
to augment and `solve` returns the empty mapping. -/
theorem claim_C10_empty (ns : List V) (fuel : Nat) :
    solve ⟨ns, []⟩ (fuel + 1) = some [] ∧
    (innerLoop ⟨ns, []⟩ (ns.length + 2)
        (initializeLabels ⟨ns, []⟩ initSt)).map (·.1) = some false := by
  have hnb : ∀ u, nbrs ⟨ns, []⟩ u = [] := fun _ => rfl
  have hsn : ∀ (st : St) (l : List V), scanNodes ⟨ns, []⟩ st l = none := by
    intro st l
    induction l with
    | nil => rfl
    | cons u rest ih => simp [scanNodes, scanNbrs, hnb, ih]
  have hil : ∀ st : St, innerLoop ⟨ns, []⟩ (ns.length + 2) st = some (false, st) := by
    intro st
    have h2 : ns.length + 2 = (ns.length + 1) + 1 := rfl
    rw [h2, innerLoop]
    have hscan : edgeScan ⟨ns, []⟩ st = none := hsn st ns
    rw [hscan]
  constructor
  · have ho : outerLoop ⟨ns, []⟩ (fuel + 1) initSt =
        some (initializeLabels ⟨ns, []⟩ initSt) := by
      rw [outerLoop]
      have := hil (initializeLabels ⟨ns, []⟩ initSt)
      rw [this]
    rw [solve, solveX, ho]
    rfl
  · rw [hil]
    rfl

/-- Claim C7: when case B of `_label_or_augment` is reached but no closing
half-cycle exists, the code does not surface a fatal error: it returns
`False` with the state unchanged (indistinguishable from the case-A
"continue scanning" signal), so `solve`'s inner loop rescans the same
state forever (modelled by `innerLoop` returning `none` at every fuel). -/
theorem claim_C7_no_fatal_error :
    labelOrAugment G12 stBad 1 2 = some (false, stBad) ∧
    ∀ n : Nat, innerLoop G12 n stBad = none := by
  have h1 : labelOrAugment G12 stBad 1 2 = some (false, stBad) := rfl
  refine ⟨h1, ?_⟩
  intro n
  induction n with
  | zero => rfl
  | succ k ih =>
      have hscan : edgeScan G12 stBad = some (1, 2) := rfl
      have hl : stBad.labels 2 = none := rfl
      rw [innerLoop, hscan]
      simp [hl, h1, ih]

/-- Claim C9: every entry of the mapping returned by `solve` has a
canonically oriented key `u < v` and a strictly positive value, and the
reversed orientation of its key never appears among the keys. -/
theorem claim_C9_canonical (G : Graph) (fuel : Nat) (m : XMap)
    (hm : solve G fuel = some m) :
    ∀ p ∈ m, p.1.1 < p.1.2 ∧ 0 < qval p.2 ∧ ∀ q ∈ m, q.1 ≠ (p.1.2, p.1.1) := by
  rw [solve] at hm
  cases hx : solveX G fuel with
  | none => rw [hx] at hm; simp at hm
  | some x =>
      rw [hx] at hm
      simp only [Option.map_some', Option.some.injEq] at hm
      subst hm
      have hcond : ∀ p : Edge × ℤ, p ∈ extractResult x → 0 < p.2 ∧ p.1.1 < p.1.2 := by
        intro p hp
        have h := (List.mem_filter.1 hp).2
        simpa [Bool.and_eq_true, decide_eq_true_eq] using h
      intro p hp
      obtain ⟨hpos, hlt⟩ := hcond p hp
      refine ⟨hlt, ?_, ?_⟩
      · rw [qval]
        have : (0 : ℚ) < (p.2 : ℚ) := by exact_mod_cast hpos
        positivity
      · intro q hq hqe
        obtain ⟨-, hql⟩ := hcond q hq
        rw [hqe] at hql
        exact absurd hlt (by simpa using Nat.lt_asymm hql)

/-- Claim C9 witness: a concrete instantiation on the triangle run. -/
theorem claim_C9_canonical_witness :
    (1 : V) < 2 ∧ 0 < qval 1 ∧ ∀ q ∈ triRes, q.1 ≠ ((2 : V), (1 : V)) := by
  have h := claim_C9_canonical (Graph.ofEdges triangle) 10 triRes (by decide)
    ((1,2), 1) (by decide)
  exact h

/-- Claim C6 counterexample: on the pendant graph, the state `st3` reached
after two phases has the half-valued triangle; the third phase's scan
returns `(4, 3)`, case B traces the cycle `[3, 1, 2]`, and the type-2
relabeling STRICTLY DECREASES the total matching value from `3/2` to `1`.
The phase then does not end at the signal: `solve` additionally calls
`_augment(4, 3)`, which changes the off-cycle edge `(3, 4)` from `0` to
`1`. -/
theorem claim_C6_counterexample :
    ((phaseStep Gp initSt).bind (fun r => phaseStep Gp r.2)).map
        (fun r => (r.1, r.2.x)) = some (true, x2) ∧
    edgeScan Gp st3 = some (4, 3) ∧
    st3.labels 3 ≠ some Lbl.plus ∧
    (labelOrAugment Gp st3 4 3).map (fun r => (r.1, r.2.x)) = some (true, xAfter) ∧
    matchTotal x2 = 3/2 ∧ matchTotal xAfter = 1 ∧
    ¬ (matchTotal x2 < matchTotal xAfter) ∧
    qval (dget x2 (3, 4)) = 0 ∧
    (innerLoop Gp 6 st3).map (fun r => (r.1, qval (dget r.2.x (3, 4)))) =
      some (true, 1) := by
  have h2 : totalOf x2 = 6 := by decide
  have ha : totalOf xAfter = 4 := by decide
  have hm2 : matchTotal x2 = 3/2 := by rw [matchTotal, h2]; norm_num
  have hma : matchTotal xAfter = 1 := by rw [matchTotal, ha]; norm_num
  refine ⟨by decide, by decide, by decide, by decide, hm2, hma, ?_, ?_, ?_⟩
  · rw [hm2, hma]; norm_num
  · have : dget x2 (3, 4) = 0 := by decide
    rw [this, qval]; norm_num
  · have : (innerLoop Gp 6 st3).map (fun r => (r.1, dget r.2.x (3, 4))) =
        some (true, 2) := by decide
    cases hil : innerLoop Gp 6 st3 with
    | none => rw [hil] at this; simp at this
    | some r =>
        rw [hil] at this
        simp only [Option.map_some', Option.some.injEq, Prod.mk.injEq] at this
        simp only [Option.map_some', Option.some.injEq, Prod.mk.injEq]
        refine ⟨this.1, ?_⟩
        rw [this.2, qval]
        norm_num

-- ──────────────── dictionary lemmas ────────────────

theorem dget_dset (x : XMap) (k : Edge) (v : ℤ) (e : Edge) :
    dget (dset x k v) e = if e = k then v else dget x e := by
  induction x with
  | nil =>
      show dget [(k, v)] e = if e = k then v else dget [] e
      simp only [dget]
      rcases eq_or_ne e k with h | h
      · rw [if_pos h.symm, if_pos h]
      · rw [if_neg (Ne.symm h), if_neg h]
  | cons p rest ih =>
      obtain ⟨a, b⟩ := p
      rw [dset]
      rcases eq_or_ne a k with h1 | h1
      · rw [if_pos h1]
        subst h1
        simp only [dget]
        rcases eq_or_ne e a with h2 | h2
        · rw [if_pos h2.symm, if_pos h2]
        · rw [if_neg (Ne.symm h2), if_neg h2, if_neg (Ne.symm h2)]
      · rw [if_neg h1]
        simp only [dget, ih]
        rcases eq_or_ne a e with h2 | h2
        · have he : e ≠ k := h2 ▸ h1
          rw [if_pos h2, if_neg he, if_pos h2]
        · rcases eq_or_ne e k with h3 | h3
          · rw [if_neg h2, if_pos h3, if_pos h3]
          · rw [if_neg h2, if_neg h3, if_neg h3, if_neg h2]

theorem totalOf_dset (x : XMap) (k : Edge) (v : ℤ) :
    totalOf (dset x k v) = totalOf x + v - dget x k := by
  induction x with
  | nil => simp [dset, dget, totalOf]
  | cons p rest ih =>
      obtain ⟨a, b⟩ := p
      rw [dset]
      rcases eq_or_ne a k with h1 | h1
      · rw [if_pos h1]
        subst h1
        simp only [totalOf, dget, if_true]
        ring
      · rw [if_neg h1]
        simp only [totalOf, dget]
        rw [if_neg h1, ih]
        ring

theorem nodeVal_dset (x : XMap) (k : Edge) (v : ℤ) (w : V) :
    nodeVal (dset x k v) w = nodeVal x w + (if k.1 = w then v - dget x k else 0) := by
  induction x with
  | nil =>
      simp only [dset, nodeVal, dget]
      split_ifs <;> ring
  | cons p rest ih =>
      obtain ⟨a, b⟩ := p
      rw [dset]
      rcases eq_or_ne a k with h1 | h1
      · rw [if_pos h1]
        subst h1
        simp only [nodeVal, dget, if_true]
        split_ifs <;> ring
      · rw [if_neg h1]
        simp only [nodeVal, dget]
        rw [if_neg h1, ih]
        split_ifs <;> ring

theorem dget_flipEdge (x : XMap) (a b : V) (hab : a ≠ b) (e : Edge) :
    dget (flipEdge x a b) e =
      if e = (a, b) ∨ e = (b, a) then 2 - dget x (a, b) else dget x e := by
  simp only [flipEdge, dget_dset]
  have hne : ((a, b) : Edge) ≠ (b, a) := fun h => hab (congrArg Prod.fst h)
  rcases eq_or_ne e (a, b) with h1 | h1
  · subst h1
    rw [if_neg hne, if_pos rfl, if_pos (Or.inl rfl)]
  · rcases eq_or_ne e (b, a) with h2 | h2
    · subst h2
      rw [if_pos rfl, if_pos (Or.inr rfl)]
    · rw [if_neg h2, if_neg h1, if_neg (by tauto)]

theorem symm_flipEdge (x : XMap) (a b : V) (hab : a ≠ b) (hs : Symm x) :
    Symm (flipEdge x a b) := by
  intro c d
  rw [dget_flipEdge x a b hab, dget_flipEdge x a b hab]
  by_cases h1 : ((c, d) : Edge) = (a, b) ∨ ((c, d) : Edge) = (b, a)
  · have h2 : ((d, c) : Edge) = (a, b) ∨ ((d, c) : Edge) = (b, a) := by
      rcases h1 with h | h <;> simp only [Prod.mk.injEq] at h <;>
        [exact Or.inr (by simp [h.1, h.2]); exact Or.inl (by simp [h.1, h.2])]
    rw [if_pos h1, if_pos h2]
  · have h2 : ¬(((d, c) : Edge) = (a, b) ∨ ((d, c) : Edge) = (b, a)) := by
      intro h
      rcases h with h | h <;> simp only [Prod.mk.injEq] at h <;>
        [exact h1 (Or.inr (by simp [h.1, h.2])); exact h1 (Or.inl (by simp [h.1, h.2]))]
    rw [if_neg h1, if_neg h2]
    exact hs c d

theorem totalOf_flipEdge (x : XMap) (a b : V) (hab : a ≠ b)
    (hsy : dget x (b, a) = dget x (a, b)) :
    totalOf (flipEdge x a b) = totalOf x + 4 - 4 * dget x (a, b) := by
  have hne : ((b, a) : Edge) ≠ (a, b) := fun h => hab (congrArg Prod.fst h).symm
  simp only [flipEdge, totalOf_dset, dget_dset, if_neg hne, hsy]
  ring

theorem nodeVal_flipEdge (x : XMap) (a b : V) (hab : a ≠ b)
    (hsy : dget x (b, a) = dget x (a, b)) (w : V) :
    nodeVal (flipEdge x a b) w = nodeVal x w +
      (if a = w then 2 - 2 * dget x (a, b) else 0) +
      (if b = w then 2 - 2 * dget x (a, b) else 0) := by
  have hne : ((b, a) : Edge) ≠ (a, b) := fun h => hab (congrArg Prod.fst h).symm
  simp only [flipEdge, nodeVal_dset, dget_dset, if_neg hne, hsy]
  split_ifs <;> ring

theorem alt_of_agree (x x' : XMap) :
    ∀ (l : List V) (b : Bool),
      (∀ u w : V, u ∈ l → w ∈ l → dget x' (u, w) = dget x (u, w)) →
      alt x b l → alt x' b l := by
  intro l
  induction l with
  | nil => intro b _ _; trivial
  | cons a t ih =>
      cases t with
      | nil => intro b _ _; trivial
      | cons c t' =>
          intro b hag hal
          rw [alt] at hal ⊢
          refine ⟨?_, ?_⟩
          · rw [hag a c (by simp) (by simp)]
            exact hal.1
          · exact ih (!b) (fun u w hu hw =>
              hag u w (List.mem_cons_of_mem a hu) (List.mem_cons_of_mem a hw)) hal.2

theorem getLastD_congr (l : List V) (h : l ≠ []) (d e : V) :
    l.getLastD d = l.getLastD e := by
  cases l with
  | nil => exact absurd rfl h
  | cons a t => rw [List.getLastD_cons, List.getLastD_cons]

theorem getLastD_mem (l : List V) (h : l ≠ []) : ∀ d, l.getLastD d ∈ l := by
  induction l with
  | nil => exact absurd rfl h
  | cons a t ih =>
      intro d
      rw [List.getLastD_cons]
      cases t with
      | nil => simp [List.getLastD]
      | cons b t' => exact List.mem_cons_of_mem a (ih (by simp) a)

theorem headD_append (l1 l2 : List V) (h : l1 ≠ []) (d : V) :
    (l1 ++ l2).headD d = l1.headD d := by
  cases l1 with
  | nil => exact absurd rfl h
  | cons a t => rfl

theorem getLastD_append (l1 l2 : List V) (h : l2 ≠ []) (d : V) :
    (l1 ++ l2).getLastD d = l2.getLastD d := by
  induction l1 with
  | nil => rfl
  | cons a t ih =>
      rw [List.cons_append, List.getLastD_cons]
      have hne : t ++ l2 ≠ [] := by
        intro hh
        exact h (List.append_eq_nil.1 hh).2
      rw [getLastD_congr _ hne a d, ih]

theorem reverse_getLastD (l : List V) (d : V) :
    l.reverse.getLastD d = l.headD d := by
  calc l.reverse.getLastD d = (l.reverse.getLast?).getD d :=
        List.getLastD_eq_getLast? d _
    _ = (l.head?).getD d := by rw [← List.head?_reverse, List.reverse_reverse]
    _ = l.headD d := List.headD_eq_head?_getD.symm

theorem trace_cons (preds : V → Option V) (f : Nat) (c : V) (l : List V)
    (h : trace preds f c = some l) : ∃ t, l = c :: t := by
  rw [trace] at h
  cases hp : preds c with
  | none =>
      rw [hp] at h
      exact ⟨[], by simpa using h.symm⟩
  | some p =>
      rw [hp] at h
      cases f with
      | zero => simp at h
      | succ n =>
          have h' : Option.map (fun l => c :: l) (trace preds n p) = some l := h
          cases ht : trace preds n p with
          | none => rw [ht] at h'; simp at h'
          | some tl =>
              rw [ht] at h'
              simp only [Option.map_some', Option.some.injEq] at h'
              exact ⟨tl, h'.symm⟩

theorem flipPath_append :
    ∀ (l1 : List V) (x : XMap) (b : V) (l2 : List V), l1 ≠ [] →
      flipPath x (l1 ++ b :: l2) =
        flipPath (flipEdge (flipPath x l1) (l1.getLastD 0) b) (b :: l2) := by
  intro l1
  induction l1 with
  | nil => intro x b l2 h; exact absurd rfl h
  | cons a t ih =>
      intro x b l2 _
      cases t with
      | nil => rfl
      | cons a2 t2 =>
          show flipPath (flipEdge x a a2) ((a2 :: t2) ++ b :: l2) =
            flipPath (flipEdge (flipPath (flipEdge x a a2) (a2 :: t2))
              ((a :: a2 :: t2).getLastD 0) b) (b :: l2)
          rw [ih (flipEdge x a a2) b l2 (by simp)]
          have hL : (a :: a2 :: t2).getLastD 0 = (a2 :: t2).getLastD 0 := by
            rw [List.getLastD_cons]
            exact getLastD_congr _ (by simp) a 0
          rw [hL]

/-- Main lemma for the type-1 flip: flipping every consecutive edge of a
simple path whose edge values alternate `0, 1, …, 1, 0` (doubled:
`0, 2, …, 2, 0`) keeps the map symmetric, raises the stored total by `4`
(one unit of matching value), changes no edge with an endpoint off the
path, and raises the incident sum of each endpoint of the path by `2`
(one-half unit doubled twice). -/
theorem flipPath_spec :
    ∀ (n : Nat) (p : List V) (x : XMap),
      p.length = n → Symm x → p.Nodup → alt x false p →
      p.length % 2 = 0 → 2 ≤ p.length →
      Symm (flipPath x p) ∧
      totalOf (flipPath x p) = totalOf x + 4 ∧
      (∀ e : Edge, e.1 ∉ p → dget (flipPath x p) e = dget x e) ∧
      (∀ w : V, w ∉ p → nodeVal (flipPath x p) w = nodeVal x w) ∧
      nodeVal (flipPath x p) (p.headD 0) = nodeVal x (p.headD 0) + 2 ∧
      nodeVal (flipPath x p) (p.getLastD 0) = nodeVal x (p.getLastD 0) + 2 := by
  intro n
  induction n using Nat.strong_induction_on with
  | _ n ih =>
    intro p x hlen hsym hnd halt hpar hle
    obtain _ | ⟨a, _ | ⟨b, t⟩⟩ := p
    · simp at hle
    · simp at hle
    · cases t with
      | nil =>
          -- base case: a single edge with value 0
          simp only [List.nodup_cons, List.mem_singleton, List.not_mem_nil,
            not_false_eq_true, and_true, List.nodup_nil] at hnd
          have hab : a ≠ b := hnd
          have h0 : dget x (a, b) = 0 := by simpa [alt] using halt
          have hsy0 : dget x (b, a) = dget x (a, b) := (hsym a b).symm
          have hfp : flipPath x [a, b] = flipEdge x a b := rfl
          rw [hfp]
          refine ⟨symm_flipEdge x a b hab hsym, ?_, ?_, ?_, ?_, ?_⟩
          · rw [totalOf_flipEdge x a b hab hsy0, h0]; ring
          · intro e he
            simp only [List.mem_cons, List.not_mem_nil, or_false, not_or] at he
            rw [dget_flipEdge x a b hab e, if_neg]
            rintro (h | h) <;> rw [h] at he
            · exact he.1 rfl
            · exact he.2 rfl
          · intro w hw
            simp only [List.mem_cons, List.not_mem_nil, or_false, not_or] at hw
            rw [nodeVal_flipEdge x a b hab hsy0 w,
              if_neg (fun h => hw.1 h.symm), if_neg (fun h => hw.2 h.symm)]
            ring
          · show nodeVal (flipEdge x a b) a = nodeVal x a + 2
            rw [nodeVal_flipEdge x a b hab hsy0 a, if_pos rfl,
              if_neg (Ne.symm hab), h0]
            ring
          · show nodeVal (flipEdge x a b) b = nodeVal x b + 2
            rw [nodeVal_flipEdge x a b hab hsy0 b, if_neg hab, if_pos rfl, h0]
            ring
      | cons c t' =>
          -- step case: two leading edges with values 0 and 2, then recurse
          simp only [List.nodup_cons, List.mem_cons, not_or] at hnd
          obtain ⟨⟨hab, hac, hat⟩, ⟨hbc, hbt⟩, hnd2⟩ := hnd
          obtain ⟨h0, h2, halt2⟩ :
              dget x (a, b) = 0 ∧ dget x (b, c) = 2 ∧ alt x false (c :: t') := by
            simpa [alt] using halt
          have hsy0 : dget x (b, a) = dget x (a, b) := (hsym a b).symm
          have hsym1 : Symm (flipEdge x a b) := symm_flipEdge x a b hab hsym
          have hsy1 : dget (flipEdge x a b) (c, b) = dget (flipEdge x a b) (b, c) :=
            (hsym1 b c).symm
          have hg1 : dget (flipEdge x a b) (b, c) = dget x (b, c) := by
            rw [dget_flipEdge x a b hab, if_neg]
            rintro (h | h)
            · exact hab (congrArg Prod.fst h).symm
            · exact hac (congrArg Prod.snd h).symm
          have hsym2 : Symm (flipEdge (flipEdge x a b) b c) :=
            symm_flipEdge _ b c hbc hsym1
          have hx2 : ∀ e : Edge, e ≠ (a, b) → e ≠ (b, a) → e ≠ (b, c) → e ≠ (c, b) →
              dget (flipEdge (flipEdge x a b) b c) e = dget x e := by
            intro e h1 h2' h3 h4
            rw [dget_flipEdge (flipEdge x a b) b c hbc e, if_neg (by tauto),
              dget_flipEdge x a b hab e, if_neg (by tauto)]
          have hx2n : ∀ w : V, w ≠ a → w ≠ b → w ≠ c →
              nodeVal (flipEdge (flipEdge x a b) b c) w = nodeVal x w := by
            intro w h1 h2' h3
            rw [nodeVal_flipEdge (flipEdge x a b) b c hbc hsy1 w,
              if_neg (Ne.symm h2'), if_neg (Ne.symm h3),
              nodeVal_flipEdge x a b hab hsy0 w,
              if_neg (Ne.symm h1), if_neg (Ne.symm h2')]
            ring
          have hat' : a ∉ c :: t' := by
            simp only [List.mem_cons, not_or]
            exact ⟨hac, hat⟩
          have hbt' : b ∉ c :: t' := by
            simp only [List.mem_cons, not_or]
            exact ⟨hbc, hbt⟩
          have hagree : ∀ u w : V, u ∈ c :: t' → w ∈ c :: t' →
              dget (flipEdge (flipEdge x a b) b c) (u, w) = dget x (u, w) := by
            intro u w hu hw
            have hua : u ≠ a := fun h => hat' (h ▸ hu)
            have hub : u ≠ b := fun h => hbt' (h ▸ hu)
            have hwb : w ≠ b := fun h => hbt' (h ▸ hw)
            refine hx2 (u, w) ?_ ?_ ?_ ?_
            · exact fun h => hua (congrArg Prod.fst h)
            · exact fun h => hub (congrArg Prod.fst h)
            · exact fun h => hub (congrArg Prod.fst h)
            · exact fun h => hwb (congrArg Prod.snd h)
          have halt2' : alt (flipEdge (flipEdge x a b) b c) false (c :: t') :=
            alt_of_agree x _ (c :: t') false hagree halt2
          have hlen0 : t'.length + 3 = n := by simpa using hlen
          have ht'ne : t' ≠ [] := by
            intro h
            subst h
            simp at hlen0
            omega
          have hlen2 : (c :: t').length = n - 2 := by simp; omega
          have hnd2' : (c :: t').Nodup := by
            simp only [List.nodup_cons]
            exact hnd2
          obtain ⟨ih1, ih2, ih3, ih4, ih5, ih6⟩ :=
            ih (n - 2) (by omega) (c :: t') (flipEdge (flipEdge x a b) b c)
              hlen2 hsym2 hnd2' halt2' (by rw [hlen2]; omega) (by rw [hlen2]; omega)
          have hfp : flipPath x (a :: b :: c :: t') =
              flipPath (flipEdge (flipEdge x a b) b c) (c :: t') := rfl
          have htot1 : totalOf (flipEdge x a b) = totalOf x + 4 := by
            rw [totalOf_flipEdge x a b hab hsy0, h0]; ring
          have htot2 : totalOf (flipEdge (flipEdge x a b) b c) = totalOf x := by
            rw [totalOf_flipEdge (flipEdge x a b) b c hbc hsy1, hg1, h2, htot1]; ring
          rw [hfp]
          refine ⟨ih1, ?_, ?_, ?_, ?_, ?_⟩
          · rw [ih2, htot2]
          · intro e he
            simp only [List.mem_cons, not_or] at he
            obtain ⟨hea, heb, hec, het⟩ := he
            rw [ih3 e (by simp only [List.mem_cons, not_or]; exact ⟨hec, het⟩)]
            refine hx2 e ?_ ?_ ?_ ?_
            · exact fun h => hea (congrArg Prod.fst h)
            · exact fun h => heb (congrArg Prod.fst h)
            · exact fun h => heb (congrArg Prod.fst h)
            · exact fun h => hec (congrArg Prod.fst h)
          · intro w hw
            simp only [List.mem_cons, not_or] at hw
            obtain ⟨hwa, hwb, hwc, hwt⟩ := hw
            rw [ih4 w (by simp only [List.mem_cons, not_or]; exact ⟨hwc, hwt⟩)]
            exact hx2n w hwa hwb hwc
          · show nodeVal (flipPath (flipEdge (flipEdge x a b) b c) (c :: t')) a =
              nodeVal x a + 2
            rw [ih4 a (by simp only [List.mem_cons, not_or]; exact ⟨hac, hat⟩),
              nodeVal_flipEdge (flipEdge x a b) b c hbc hsy1 a,
              if_neg (Ne.symm hab), if_neg (fun h => hac h.symm),
              nodeVal_flipEdge x a b hab hsy0 a, if_pos rfl,
              if_neg (Ne.symm hab), h0]
            ring
          · have hlast : (a :: b :: c :: t').getLastD 0 = (c :: t').getLastD 0 := by
              rw [List.getLastD_cons, List.getLastD_cons,
                getLastD_congr (c :: t') (by simp) b 0]
            rw [hlast]
            have hLmem : (c :: t').getLastD 0 ∈ c :: t' :=
              getLastD_mem (c :: t') (by simp) 0
            have hLa : (c :: t').getLastD 0 ≠ a := fun h => hat' (h ▸ hLmem)
            have hLb : (c :: t').getLastD 0 ≠ b := fun h => hbt' (h ▸ hLmem)
            rw [ih6]
            have hLval : nodeVal (flipEdge (flipEdge x a b) b c) ((c :: t').getLastD 0) =
                nodeVal x ((c :: t').getLastD 0) := by
              rcases eq_or_ne ((c :: t').getLastD 0) c with hLc | hLc
              · -- the last vertex cannot be c since t' ≠ []
                exfalso
                have : (c :: t').getLastD 0 = t'.getLastD c := List.getLastD_cons 0 c t'
                rw [getLastD_congr t' ht'ne c 0] at this
                have hmem : t'.getLastD 0 ∈ t' := getLastD_mem t' ht'ne 0
                rw [this] at hLc
                rw [hLc] at hmem
                exact (List.nodup_cons.1 hnd2').1 hmem
              · exact hx2n _ hLa hLb hLc
            rw [hLval]

/-- Claim C5: when `_augment` is called on `(u, v)` whose predecessor
chains reach two distinct roots, it flips `1 − value` along
`root_u → u`, the edge `(u, v)`, then `v → root_v` — that is, it performs
exactly the flip of the combined path `p = reverse path_u ++ path_v`.
When the predecessor forest was correctly built in the current phase,
that combined path is simple with edge values alternating `0, 1, …, 0`
and exposed roots (the formal content of the precondition, stated here
as hypotheses); the flip then raises the total matching value by exactly
`1` and saturates both roots. -/
theorem claim_C5_type1_augment
    (G : Graph) (st : St) (u v : V) (pu pv p : List V)
    (hpu : trace st.preds (G.nodeList.length + 1) u = some pu)
    (hpv : trace st.preds (G.nodeList.length + 1) v = some pv)
    (hroots : pu.getLastD 0 ≠ pv.getLastD 0)
    (hp : p = pu.reverse ++ pv)
    (hsym : Symm st.x) (hnd : p.Nodup) (halt : alt st.x false p)
    (hpar : p.length % 2 = 0)
    (hru : nodeVal st.x (pu.getLastD 0) = 0)
    (hrv : nodeVal st.x (pv.getLastD 0) = 0) :
    augment G st u v = some (flipPath st.x p) ∧
    matchTotal (flipPath st.x p) = matchTotal st.x + 1 ∧
    incidentQ (flipPath st.x p) (pu.getLastD 0) = 1 ∧
    incidentQ (flipPath st.x p) (pv.getLastD 0) = 1 := by
  obtain ⟨tu, htu⟩ := trace_cons _ _ _ _ hpu
  obtain ⟨tv, htv⟩ := trace_cons _ _ _ _ hpv
  have hpune : pu ≠ [] := by rw [htu]; simp
  have hpvne : pv ≠ [] := by rw [htv]; simp
  have hrne : pu.getLastD u ≠ pv.getLastD v := by
    rw [getLastD_congr pu hpune u 0, getLastD_congr pv hpvne v 0]
    exact hroots
  have haug : augment G st u v =
      some (flipPath (flipEdge (flipPath st.x pu.reverse) u v) pv) := by
    rw [augment, hpu, hpv]
    simp only [if_pos hrne]
  have hrev_ne : pu.reverse ≠ [] := by simpa using hpune
  have hlast_rev : pu.reverse.getLastD 0 = u := by
    rw [reverse_getLastD, htu]
    rfl
  have hflip : flipPath st.x p =
      flipPath (flipEdge (flipPath st.x pu.reverse) u v) pv := by
    rw [hp, htv, flipPath_append pu.reverse st.x v tv hrev_ne, hlast_rev]
  have hple : 2 ≤ p.length := by
    rw [hp, List.length_append, List.length_reverse, htu, htv]
    simp only [List.length_cons]
    omega
  obtain ⟨-, s2, -, -, s5, s6⟩ :=
    flipPath_spec p.length p st.x rfl hsym hnd halt hpar hple
  have hhead : p.headD 0 = pu.getLastD 0 := by
    have hrh : pu.reverse.headD 0 = pu.getLastD 0 := by
      have h := reverse_getLastD pu.reverse 0
      rw [List.reverse_reverse] at h
      exact h.symm
    rw [hp, headD_append _ _ hrev_ne, hrh]
  have hlastp : p.getLastD 0 = pv.getLastD 0 := by
    rw [hp, getLastD_append _ _ hpvne]
  refine ⟨by rw [haug, hflip], ?_, ?_, ?_⟩
  · rw [matchTotal, matchTotal, s2]
    push_cast
    ring
  · rw [incidentQ, ← hhead, s5, hhead, hru]
    norm_num
  · rw [incidentQ, ← hlastp, s6, hlastp, hrv]
    norm_num

/-- Claim C5 witness: the very first augmentation on the single-edge
graph, from the freshly initialized state. -/
theorem claim_C5_type1_augment_witness :
    augment G12 (initializeLabels G12 initSt) 1 2 =
      some (flipPath (initializeLabels G12 initSt).x [1, 2]) ∧
    matchTotal (flipPath (initializeLabels G12 initSt).x [1, 2]) =
      matchTotal (initializeLabels G12 initSt).x + 1 ∧
    incidentQ (flipPath (initializeLabels G12 initSt).x [1, 2])
      (([1] : List V).getLastD 0) = 1 ∧
    incidentQ (flipPath (initializeLabels G12 initSt).x [1, 2])
      (([2] : List V).getLastD 0) = 1 := by
  exact claim_C5_type1_augment G12 (initializeLabels G12 initSt) 1 2 [1] [2] [1, 2]
    (by rfl) (by rfl) (by decide) rfl
    (by intro a b; rfl) (by decide)
    (by show alt ([] : XMap) false [1, 2]; simp [alt, dget])
    (by decide) (by rfl) (by rfl)

theorem mem_dset (x : XMap) (k : Edge) (v : ℤ) (p : Edge × ℤ)
    (h : p ∈ dset x k v) : p = (k, v) ∨ p ∈ x := by
  induction x with
  | nil => simpa [dset] using h
  | cons q rest ih =>
      obtain ⟨a, b⟩ := q
      rw [dset] at h
      by_cases h1 : a = k
      · rw [if_pos h1] at h
        rcases List.mem_cons.1 h with h2 | h2
        · exact Or.inl h2
        · exact Or.inr (List.mem_cons_of_mem _ h2)
      · rw [if_neg h1] at h
        rcases List.mem_cons.1 h with h2 | h2
        · exact Or.inr (by simp [h2])
        · rcases ih h2 with h3 | h3
          · exact Or.inl h3
          · exact Or.inr (List.mem_cons_of_mem _ h3)

theorem domv_dset (x : XMap) (k : Edge) (v : ℤ) (hx : DomV x)
    (hv : v = 0 ∨ v = 1 ∨ v = 2) : DomV (dset x k v) := by
  intro p hp
  rcases mem_dset x k v p hp with h | h
  · rw [h]; exact hv
  · exact hx p h

theorem domv_dget (x : XMap) (hx : DomV x) (e : Edge) :
    dget x e = 0 ∨ dget x e = 1 ∨ dget x e = 2 := by
  induction x with
  | nil => left; rfl
  | cons q rest ih =>
      obtain ⟨a, b⟩ := q
      rw [dget]
      by_cases h1 : a = e
      · rw [if_pos h1]; exact hx (a, b) (by simp)
      · rw [if_neg h1]
        exact ih (fun p hp => hx p (List.mem_cons_of_mem _ hp))

theorem domv_flipEdge (x : XMap) (a b : V) (hx : DomV x) :
    DomV (flipEdge x a b) := by
  have hv : 2 - dget x (a, b) = 0 ∨ 2 - dget x (a, b) = 1 ∨ 2 - dget x (a, b) = 2 := by
    rcases domv_dget x hx (a, b) with h | h | h <;> rw [h] <;> norm_num
  exact domv_dset _ _ _ (domv_dset _ _ _ hx hv) hv

theorem domv_flipPath (l : List V) : ∀ (x : XMap), DomV x → DomV (flipPath x l) := by
  induction l with
  | nil => intro x hx; exact hx
  | cons a t ih =>
      intro x hx
      cases t with
      | nil => exact hx
      | cons b t' => exact ih (flipEdge x a b) (domv_flipEdge x a b hx)

theorem foldl_domv (f : XMap → Nat → XMap)
    (hf : ∀ acc i, DomV acc → DomV (f acc i)) :
    ∀ (l : List Nat) (x : XMap), DomV x → DomV (l.foldl f x) := by
  intro l
  induction l with
  | nil => intro x hx; exact hx
  | cons i t ih => intro x hx; exact ih (f x i) (hf x i hx)

theorem domv_toggleCycle (x : XMap) (c : List V) (hx : DomV x) :
    DomV (toggleCycle x c) := by
  refine foldl_domv _ ?_ (List.range c.length) x hx
  intro acc i hacc
  have hnv : ∀ t : ℤ, (if t ≠ 1 then (1 : ℤ) else 0) = 0 ∨
      (if t ≠ 1 then (1 : ℤ) else 0) = 1 ∨ (if t ≠ 1 then (1 : ℤ) else 0) = 2 := by
    intro t
    split_ifs <;> norm_num
  exact domv_dset _ _ _ (domv_dset _ _ _ hacc (hnv _)) (hnv _)

theorem domv_assignCycle (x : XMap) (c : List V) (hx : DomV x) :
    DomV (assignCycle x c) := by
  refine foldl_domv _ ?_ (List.range c.length) x hx
  intro acc i hacc
  have hnv : (if i % 2 = 0 then (0 : ℤ) else 2) = 0 ∨
      (if i % 2 = 0 then (0 : ℤ) else 2) = 1 ∨ (if i % 2 = 0 then (0 : ℤ) else 2) = 2 := by
    split_ifs <;> norm_num
  exact domv_dset _ _ _ (domv_dset _ _ _ hacc hnv) hnv

theorem domv_augment (G : Graph) (st : St) (u v : V) (x' : XMap)
    (hx : DomV st.x) (h : augment G st u v = some x') : DomV x' := by
  rw [augment] at h
  cases h1 : trace st.preds (G.nodeList.length + 1) u with
  | none => rw [h1] at h; simp at h
  | some pu =>
      cases h2 : trace st.preds (G.nodeList.length + 1) v with
      | none => rw [h1, h2] at h; simp at h
      | some pv =>
          rw [h1, h2] at h
          have h' : (if pu.getLastD u ≠ pv.getLastD v then
              some (flipPath (flipEdge (flipPath st.x pu.reverse) u v) pv)
            else some (flipPath (toggleCycle st.x (buildCycle pu pv)) pv.reverse)) =
              some x' := h
          clear h
          rename' h' => h
          split_ifs at h with hc
          · have hx' : flipPath (flipEdge (flipPath st.x pu.reverse) u v) pv = x' := by
              simpa using h
            rw [← hx']
            exact domv_flipPath pv _
              (domv_flipEdge _ u v (domv_flipPath pu.reverse st.x hx))
          · have hx' : flipPath (toggleCycle st.x (buildCycle pu pv)) pv.reverse = x' := by
              simpa using h
            rw [← hx']
            exact domv_flipPath pv.reverse _ (domv_toggleCycle st.x _ hx)

theorem domv_labelOrAugment (G : Graph) (st : St) (u v : V) (b : Bool) (st' : St)
    (hx : DomV st.x) (h : labelOrAugment G st u v = some (b, st')) : DomV st'.x := by
  rw [labelOrAugment] at h
  cases h1 : findSat st.x v (nbrs G v) with
  | some w =>
      rw [h1] at h
      simp only [Option.some.injEq, Prod.mk.injEq] at h
      rw [← h.2]
      exact hx
  | none =>
      rw [h1] at h
      cases h2 : halfLoop G st.x (G.nodeList.length + 1) [v] [v] with
      | none => rw [h2] at h; simp at h
      | some o =>
          cases o with
          | none =>
              rw [h2] at h
              simp only [Option.some.injEq, Prod.mk.injEq] at h
              rw [← h.2]
              exact hx
          | some cyc =>
              rw [h2] at h
              simp only [Option.some.injEq, Prod.mk.injEq] at h
              rw [← h.2]
              exact domv_assignCycle st.x cyc hx

theorem domv_innerLoop (G : Graph) : ∀ (fuel : Nat) (st : St) (b : Bool) (st' : St),
    DomV st.x → innerLoop G fuel st = some (b, st') → DomV st'.x := by
  intro fuel
  induction fuel with
  | zero => intro st b st' _ h; simp [innerLoop] at h
  | succ n ih =>
      intro st b st' hx h
      rw [innerLoop] at h
      cases hs : edgeScan G st with
      | none =>
          rw [hs] at h
          simp only [Option.some.injEq, Prod.mk.injEq] at h
          rw [← h.2]
          exact hx
      | some uv =>
          obtain ⟨u, v⟩ := uv
          rw [hs] at h
          have h' : (if st.labels v = some Lbl.plus then
              Option.map (fun x' => (true, { st with x := x' })) (augment G st u v)
            else
              match labelOrAugment G st u v with
              | none => none
              | some (true, st2) =>
                  Option.map (fun x' => (true, { st2 with x := x' })) (augment G st2 u v)
              | some (false, st2) => innerLoop G n st2) = some (b, st') := h
          clear h
          rename' h' => h
          by_cases hl : st.labels v = some Lbl.plus
          · rw [if_pos hl] at h
            cases ha : augment G st u v with
            | none => rw [ha] at h; simp at h
            | some x' =>
                rw [ha] at h
                simp only [Option.map_some', Option.some.injEq, Prod.mk.injEq] at h
                rw [← h.2]
                exact domv_augment G st u v x' hx ha
          · rw [if_neg hl] at h
            cases hla : labelOrAugment G st u v with
            | none => rw [hla] at h; simp at h
            | some r =>
                obtain ⟨bb, st2⟩ := r
                rw [hla] at h
                have hd2 : DomV st2.x := domv_labelOrAugment G st u v bb st2 hx hla
                cases bb with
                | true =>
                    have h2 : Option.map (fun x' => (true, { st2 with x := x' }))
                        (augment G st2 u v) = some (b, st') := h
                    cases ha : augment G st2 u v with
                    | none => rw [ha] at h2; simp at h2
                    | some x' =>
                        rw [ha] at h2
                        simp only [Option.map_some', Option.some.injEq,
                          Prod.mk.injEq] at h2
                        rw [← h2.2]
                        exact domv_augment G st2 u v x' hd2 ha
                | false => exact ih st2 b st' hd2 h

theorem domv_outerLoop (G : Graph) : ∀ (fuel : Nat) (st st' : St),
    DomV st.x → outerLoop G fuel st = some st' → DomV st'.x := by
  intro fuel
  induction fuel with
  | zero => intro st st' _ h; simp [outerLoop] at h
  | succ n ih =>
      intro st st' hx h
      rw [outerLoop] at h
      have hx1 : DomV (initializeLabels G st).x := hx
      cases hi : innerLoop G (G.nodeList.length + 2) (initializeLabels G st) with
      | none => rw [hi] at h; simp at h
      | some r =>
          obtain ⟨bb, st2⟩ := r
          rw [hi] at h
          have hd2 : DomV st2.x :=
            domv_innerLoop G (G.nodeList.length + 2) (initializeLabels G st) bb st2 hx1 hi
          cases bb with
          | true => exact ih st2 st' hd2 h
          | false =>
              simp only [Option.some.injEq] at h
              rw [← h]
              exact hd2

theorem qval_trichotomy (h : ℤ) :
    (qval h = 0 ∨ qval h = 1/2 ∨ qval h = 1) ↔ (h = 0 ∨ h = 1 ∨ h = 2) := by
  unfold qval
  constructor
  · rintro (hh | hh | hh)
    · left
      field_simp at hh
      exact_mod_cast hh
    · right; left
      field_simp at hh
      exact_mod_cast hh
    · right; right
      field_simp at hh
      exact_mod_cast hh
  · rintro (rfl | rfl | rfl) <;> norm_num

/-- Claim C3: the domain invariant.  Every augmentation (the `_augment`
flips and the type-2 assignment of `_label_or_augment`) maps a value map
whose stored values lie in `{0, 0.5, 1}` to one whose stored values lie
in `{0, 0.5, 1}`; the full map at the end of `solve`'s loops satisfies
it; and every value in the returned mapping is exactly `0.5` or `1`
(zero-valued entries are filtered out). -/
theorem claim_C3_domain :
    (∀ (G : Graph) (st : St) (u v : V) (x' : XMap),
        (∀ p ∈ st.x, qval p.2 = 0 ∨ qval p.2 = 1/2 ∨ qval p.2 = 1) →
        augment G st u v = some x' →
        ∀ p ∈ x', qval p.2 = 0 ∨ qval p.2 = 1/2 ∨ qval p.2 = 1) ∧
    (∀ (G : Graph) (st : St) (u v : V) (b : Bool) (st' : St),
        (∀ p ∈ st.x, qval p.2 = 0 ∨ qval p.2 = 1/2 ∨ qval p.2 = 1) →
        labelOrAugment G st u v = some (b, st') →
        ∀ p ∈ st'.x, qval p.2 = 0 ∨ qval p.2 = 1/2 ∨ qval p.2 = 1) ∧
    (∀ (G : Graph) (fuel : Nat) (x : XMap),
        solveX G fuel = some x →
        ∀ p ∈ x, qval p.2 = 0 ∨ qval p.2 = 1/2 ∨ qval p.2 = 1) ∧
    (∀ (G : Graph) (fuel : Nat) (m : XMap),
        solve G fuel = some m →
        ∀ p ∈ m, qval p.2 = 1/2 ∨ qval p.2 = 1) := by
  have hsx : ∀ (G : Graph) (fuel : Nat) (x : XMap),
      solveX G fuel = some x → DomV x := by
    intro G fuel x h
    rw [solveX] at h
    cases ho : outerLoop G fuel initSt with
    | none => rw [ho] at h; simp at h
    | some st' =>
        rw [ho] at h
        simp only [Option.map_some', Option.some.injEq] at h
        rw [← h]
        exact domv_outerLoop G fuel initSt st'
          (fun p hp => absurd hp (List.not_mem_nil p)) ho
  refine ⟨?_, ?_, ?_, ?_⟩
  · intro G st u v x' hst h p hp
    exact (qval_trichotomy p.2).2
      (domv_augment G st u v x'
        (fun q hq => (qval_trichotomy q.2).1 (hst q hq)) h p hp)
  · intro G st u v b st' hst h p hp
    exact (qval_trichotomy p.2).2
      (domv_labelOrAugment G st u v b st'
        (fun q hq => (qval_trichotomy q.2).1 (hst q hq)) h p hp)
  · intro G fuel x h p hp
    exact (qval_trichotomy p.2).2 (hsx G fuel x h p hp)
  · intro G fuel m h p hp
    rw [solve] at h
    cases hx : solveX G fuel with
    | none => rw [hx] at h; simp at h
    | some x =>
        rw [hx] at h
        simp only [Option.map_some', Option.some.injEq] at h
        rw [← h] at hp
        have hmem := (List.mem_filter.1 hp).1
        have hcond := (List.mem_filter.1 hp).2
        simp only [Bool.and_eq_true, decide_eq_true_eq] at hcond
        have hdom := hsx G fuel x hx p hmem
        rcases hdom with h0 | h1 | h2
        · omega
        · left; rw [h1, qval]; norm_num
        · right; rw [h2, qval]; norm_num

/-- Claim C3 witness: the triangle run, whose returned values are all
`0.5`. -/
theorem claim_C3_domain_witness :
    minimalFractionMaxMatching triangle 10 = some triRes ∧
    ∀ p ∈ triRes, qval p.2 = 1/2 ∨ qval p.2 = 1 := by
  refine ⟨by decide, ?_⟩
  intro p hp
  exact claim_C3_domain.2.2.2 (Graph.ofEdges triangle) 10 triRes (by decide) p hp

theorem assignCycle_eq_aCyc (x : XMap) (c : List V) :
    assignCycle x c = aCyc x c c.length := rfl

theorem foldl_range_succ {α : Type} (f : α → Nat → α) (x : α) (n : Nat) :
    (List.range (n + 1)).foldl f x = f ((List.range n).foldl f x) n := by
  rw [List.range_succ, List.foldl_append]
  rfl

theorem aCyc_succ (x : XMap) (c : List V) (n : Nat) :
    aCyc x c (n + 1) =
      dset (dset (aCyc x c n) (c.getD n 0, c.getD ((n + 1) % c.length) 0)
          (if n % 2 = 0 then 0 else 2))
        (c.getD ((n + 1) % c.length) 0, c.getD n 0) (if n % 2 = 0 then 0 else 2) := by
  rw [aCyc, foldl_range_succ]
  rfl

theorem aCyc_frame (x : XMap) (c : List V) :
    ∀ (n : Nat) (e : Edge),
      (∀ i, i < n → e ≠ (c.getD i 0, c.getD ((i + 1) % c.length) 0) ∧
        e ≠ (c.getD ((i + 1) % c.length) 0, c.getD i 0)) →
      dget (aCyc x c n) e = dget x e := by
  intro n
  induction n with
  | zero => intro e _; rfl
  | succ m ih =>
      intro e he
      rw [aCyc_succ, dget_dset, dget_dset, if_neg (he m (by omega)).2,
        if_neg (he m (by omega)).1]
      exact ih e (fun i hi => he i (by omega))

theorem getD_ne_of_ne (c : List V) (hnd : c.Nodup) (i j : Nat)
    (hi : i < c.length) (hj : j < c.length) (hij : i ≠ j) :
    c.getD i 0 ≠ c.getD j 0 := by
  rw [List.getD_eq_getElem c 0 hi, List.getD_eq_getElem c 0 hj]
  intro h
  exact hij ((List.Nodup.getElem_inj_iff hnd).1 h)

theorem pair_ne_pair (c : List V) (hnd : c.Nodup) (i j : Nat)
    (hi : i < c.length) (hj : j < c.length) (hij : i ≠ j) :
    (c.getD i 0, c.getD ((i + 1) % c.length) 0) ≠
      (c.getD j 0, c.getD ((j + 1) % c.length) 0) :=
  fun h => getD_ne_of_ne c hnd i j hi hj hij (congrArg Prod.fst h)

theorem pair_ne_swap (c : List V) (hnd : c.Nodup) (hL : 3 ≤ c.length)
    (i j : Nat) (hi : i < c.length) (hj : j < c.length) :
    (c.getD i 0, c.getD ((i + 1) % c.length) 0) ≠
      (c.getD ((j + 1) % c.length) 0, c.getD j 0) := by
  intro h
  have hL0 : 0 < c.length := by omega
  have h1 : c.getD i 0 = c.getD ((j + 1) % c.length) 0 := congrArg Prod.fst h
  have h2 : c.getD ((i + 1) % c.length) 0 = c.getD j 0 := congrArg Prod.snd h
  have e1 : i = (j + 1) % c.length := by
    by_contra hne
    exact getD_ne_of_ne c hnd i ((j + 1) % c.length) hi (Nat.mod_lt _ hL0) hne h1
  have e2 : (i + 1) % c.length = j := by
    by_contra hne
    exact getD_ne_of_ne c hnd ((i + 1) % c.length) j (Nat.mod_lt _ hL0) hj hne h2
  have e3 : j = (j + 2) % c.length := by
    calc j = (i + 1) % c.length := e2.symm
      _ = ((j + 1) % c.length + 1) % c.length := by rw [e1]
      _ = (j + 1 + 1) % c.length := Nat.mod_add_mod (j + 1) c.length 1
      _ = (j + 2) % c.length := rfl
  rcases Nat.lt_or_ge (j + 2) c.length with hlt | hge
  · rw [Nat.mod_eq_of_lt hlt] at e3
    omega
  · have hsub : (j + 2) % c.length = j + 2 - c.length := by
      rw [Nat.mod_eq_sub_mod hge, Nat.mod_eq_of_lt (by omega)]
    rw [hsub] at e3
    omega

theorem aCyc_value (x : XMap) (c : List V) (hnd : c.Nodup) (hL : 3 ≤ c.length) :
    ∀ (m i : Nat), i < m → m ≤ c.length →
      dget (aCyc x c m) (c.getD i 0, c.getD ((i + 1) % c.length) 0) =
        (if i % 2 = 0 then 0 else 2) := by
  intro m
  induction m with
  | zero => intro i hi _; omega
  | succ k ih =>
      intro i hi hm
      have hkL : k < c.length := by omega
      have hiL : i < c.length := by omega
      rcases Nat.lt_or_ge i k with hik | hik
      · rw [aCyc_succ, dget_dset, dget_dset,
          if_neg (pair_ne_swap c hnd hL i k hiL hkL),
          if_neg (pair_ne_pair c hnd i k hiL hkL (by omega))]
        exact ih i hik (by omega)
      · have hik' : i = k := by omega
        subst hik'
        rw [aCyc_succ, dget_dset, dget_dset,
          if_neg (pair_ne_swap c hnd hL i i hiL hiL), if_pos rfl]

/-- Claim C6 (amended): when case B of `_label_or_augment` finds a closing
cycle, the type-2 assignment writes alternating integral values `0, 1,
0, 1, …` around the traced cycle (even position → 0, odd → 1) and changes
no edge outside those cycle pairs; it signals "augmented", and `solve`
then performs one further `_augment(u, v)` in the same phase before
ending it (so the phase does not end immediately at the signal, and
edges outside the cycle can still change; the relabeling alone need not
increase the total value). -/
theorem claim_C6_amended :
    (∀ (x : XMap) (c : List V), c.Nodup → 3 ≤ c.length →
      (∀ i, i < c.length →
        qval (dget (assignCycle x c) (c.getD i 0, c.getD ((i + 1) % c.length) 0)) =
          (if i % 2 = 0 then 0 else 1)) ∧
      (∀ e : Edge, e ∉ cycPairs c → (e.2, e.1) ∉ cycPairs c →
        dget (assignCycle x c) e = dget x e)) ∧
    (∀ (G : Graph) (st st' : St) (u v : V) (fuel : Nat),
      edgeScan G st = some (u, v) → st.labels v ≠ some Lbl.plus →
      labelOrAugment G st u v = some (true, st') →
      innerLoop G (fuel + 1) st =
        (augment G st' u v).map (fun x' => (true, { st' with x := x' }))) := by
  constructor
  · intro x c hnd hL
    constructor
    · intro i hi
      rw [assignCycle_eq_aCyc, aCyc_value x c hnd hL c.length i hi le_rfl]
      split_ifs <;> norm_num [qval]
    · intro e he hes
      rw [assignCycle_eq_aCyc]
      refine aCyc_frame x c c.length e ?_
      intro i hi
      constructor
      · intro hcontra
        exact he (by
          rw [hcontra]
          exact List.mem_map.2 ⟨i, List.mem_range.2 hi, rfl⟩)
      · intro hcontra
        refine hes ?_
        have : (e.2, e.1) = (c.getD i 0, c.getD ((i + 1) % c.length) 0) := by
          rw [hcontra]
        rw [this]
        exact List.mem_map.2 ⟨i, List.mem_range.2 hi, rfl⟩
  · intro G st st' u v fuel hscan hl hla
    rw [innerLoop, hscan]
    show (if st.labels v = some Lbl.plus then
        Option.map (fun x' => (true, { st with x := x' })) (augment G st u v)
      else
        match labelOrAugment G st u v with
        | none => none
        | some (true, st2) =>
            Option.map (fun x' => (true, { st2 with x := x' })) (augment G st2 u v)
        | some (false, st2) => innerLoop G fuel st2) =
      (augment G st' u v).map (fun x' => (true, { st' with x := x' }))
    rw [if_neg hl, hla]

/-- Claim C6 (amended) witness: on the pendant graph's third phase, the
cycle pair at odd index 1 (edge `(1, 2)`) receives value `1`, and the
inner loop indeed continues into the extra `_augment(4, 3)` call. -/
theorem claim_C6_amended_witness :
    qval (dget (assignCycle x2 [3, 1, 2])
        (([3, 1, 2] : List V).getD 1 0,
         ([3, 1, 2] : List V).getD ((1 + 1) % ([3, 1, 2] : List V).length) 0)) =
      (if 1 % 2 = 0 then 0 else 1) ∧
    innerLoop Gp (5 + 1) st3 =
      (augment Gp stAfter 4 3).map (fun x' => (true, { stAfter with x := x' })) := by
  refine ⟨(claim_C6_amended.1 x2 [3, 1, 2] (by decide) (by decide)).1 1 (by decide), ?_⟩
  exact claim_C6_amended.2 Gp st3 stAfter 4 3 5 (by decide) (by decide) rfl

end FracMatching
